import Mathlib

/-!
Verification of the `RecordTable` core of the pishne repository
(`src/root.py`), shallowly embedded in Lean 4.

Conventions of the embedding:
* A pandas dataframe row of a `RecordTable` is a `Rec`: the four base
  bookkeeping columns are explicit fields, the remaining (domain) columns
  are an association list `fields : List (String × String)` keyed by
  column name.  An absent key models a `NaN`/missing cell.
* `RecordTable.data` starts as `None` in Python; table data is therefore
  `Option (List Rec)`, with `none` for "no data yet".
* Operations that can raise a Python exception return `Option _`,
  with `none` for the raised exception.
* Current time (`datetime.now` formatting) is passed in as an explicit
  `now : String` argument.
* Python string comparison is code-point lexicographic; it is embedded by
  `clLe` on the character lists.  `sort_values(...).values[-1]` (ascending
  sort, then last element) is embedded directly as the maximum of that
  order, computed by a fold.
-/

/-- Code-point lexicographic `≤` on character lists: the embedding of
Python string comparison used by `pandas.sort_values` on a string column. -/
def clLe : List Char → List Char → Bool
  | [], _ => true
  | _ :: _, [] => false
  | a :: as, b :: bs =>
      if a.toNat < b.toNat then true
      else if b.toNat < a.toNat then false
      else clLe as bs

/-- Python `s1 <= s2` on strings. -/
def pyStrLe (a b : String) : Bool := clLe a.data b.data

/-- Maximum of two strings in Python string order, preferring the second
argument on ties (as the last element of a stable ascending sort does). -/
def strMax (a b : String) : String :=
  if pyStrLe a b then b else a

/-- `'0'`-padding `str.zfill(w)` from Python. -/
def zfill (w : Nat) (s : String) : String :=
  ⟨List.replicate (w - s.length) '0' ++ s.data⟩

/-- Decimal digit character for `d` (`0 ↦ '0'`, …). -/
def dChar (d : Nat) : Char := Char.ofNat (48 + d)

/-- Little-endian base-10 digits, with explicit fuel so that the kernel can
evaluate it (`fuel ≥ n` suffices; proven equal to `Nat.digits 10` below). -/
def decAux : Nat → Nat → List Nat
  | 0, _ => []
  | fuel + 1, n => if n = 0 then [] else n % 10 :: decAux fuel (n / 10)

/-- Embedding of Python `str(n)` for a natural number: big-endian decimal
digits. -/
def natToDec (n : Nat) : String :=
  if n = 0 then "0" else ⟨((decAux n n).reverse).map dChar⟩

/-- Numeric value of one digit character 48..57. -/
def digToNat (c : Char) : Nat := c.toNat - 48

/-- Embedding of Python `int(s)` on a (possibly zero-padded) string of
decimal digit characters. -/
def parseDigits (cs : List Char) : Nat :=
  cs.foldl (fun a c => 10 * a + digToNat c) 0

/-- Embedding of Python `s.replace("Rec", "")`: remove every (left-to-right,
non-overlapping) occurrence of `"Rec"`. -/
def stripRec : List Char → List Char
  | [] => []
  | [c] => [c]
  | [c1, c2] => [c1, c2]
  | c1 :: c2 :: c3 :: rest =>
      if c1 = 'R' ∧ c2 = 'e' ∧ c3 = 'c' then stripRec rest
      else c1 :: stripRec (c2 :: c3 :: rest)

/-- `int(recid.replace("Rec", ""))`: the numeric suffix of a record id. -/
def parseId (s : String) : Nat := parseDigits (stripRec s.data)

/-- One row of a `RecordTable` dataframe.  The four base columns
(`RecId`, `RecTable`, `RecTimestamp`, `RecStatus`, see
`RecordTable._set_base_columns`) are explicit fields; domain columns are
the association list `fields` (a missing key models a missing/NaN cell). -/
structure Rec where
  recId : String
  recTable : String
  recTimestamp : String
  recStatus : String
  fields : List (String × String)
deriving DecidableEq, Repr

/-- Set key `k` to `v` in an association list, replacing in place the first
occurrence or appending at the end (Python `dict`/`Series` item assignment). -/
def setKV : List (String × String) → String → String → List (String × String)
  | [], k, v => [(k, v)]
  | (k0, v0) :: rest, k, v =>
      if k0 = k then (k, v) :: rest else (k0, v0) :: setKV rest k v

/-- `sr[k] = v` on a full row `Series`: base columns hit the named fields,
anything else goes to the domain association list. -/
def applyField (r : Rec) (k v : String) : Rec :=
  if k = "RecId" then { r with recId := v }
  else if k = "RecTable" then { r with recTable := v }
  else if k = "RecTimestamp" then { r with recTimestamp := v }
  else if k = "RecStatus" then { r with recStatus := v }
  else { r with fields := setKV r.fields k v }

/-- Apply every `(key, value)` of an incoming record dictionary to a row. -/
def applyDict (r : Rec) (d : List (String × String)) : Rec :=
  d.foldl (fun r kv => applyField r kv.1 kv.2) r

/-- Read a domain cell by column name. -/
def getField (r : Rec) (k : String) : Option String :=
  r.fields.lookup k

/-- `RecordTable._filter_dict_rec`: keep, in `columns_data` order, exactly
the expected data columns present in the incoming dictionary. -/
def filterDictRec (cols : List String) (d : List (String × String)) :
    List (String × String) :=
  cols.filterMap fun c => (d.lookup c).map fun v => (c, v)

/-- RecId strings of a table state (`none` = Python `data is None`). -/
def idsOf (d : Option (List Rec)) : List String :=
  (d.getD []).map (·.recId)

/-- `RecordTable._last_id_int`: `0` when `data is None`; otherwise sort the
`RecId` column ascending (Python string order), take the last value —
i.e. the maximum — and parse `int(… .replace("Rec", ""))`.  On a present
but empty dataframe `values[-1]` raises `IndexError`, embedded as `none`. -/
def lastIdInt : Option (List Rec) → Option Nat
  | none => some 0
  | some [] => none
  | some (r :: rs) =>
      some (parseId ((rs.map (·.recId)).foldl strMax r.recId))

/-- `RecordTable._next_recid`: `"Rec" + str(last + 1).zfill(id_size)` with
`id_size = 4`. -/
def nextRecid (d : Option (List Rec)) : Option String :=
  (lastIdInt d).map fun n => "Rec" ++ zfill 4 (natToDec (n + 1))

/-- `RecordTable.insert_record`: filter the incoming dictionary to the data
columns, fill the base fields (`RecTable` = table name, `RecId` from
`_next_recid`, `RecTimestamp` = now, `RecStatus = "On"`) and concatenate
the one-row frame after the existing data (`pd.concat` drops a `None`
`self.data` silently). -/
def insertRecord (now name : String) (cols : List String)
    (d : Option (List Rec)) (dict : List (String × String)) :
    Option (List Rec) :=
  match nextRecid d with
  | none => none
  | some nid => some (d.getD [] ++ [⟨nid, name, now, "On", filterDictRec cols dict⟩])

/-- `RecordTable.edit_record`: optionally filter the incoming dictionary,
add the fresh timestamp, then look the row up by `RecId` (`df.loc[rec_id]`
raises `KeyError` — embedded as `none` — when the id is absent) and
replace the provided fields in place.  When several rows share the id,
`df.loc` addresses all of them. -/
def editRecord (now : String) (cols : List String) (rows : List Rec)
    (recId : String) (dict : List (String × String)) (filterDict : Bool) :
    Option (List Rec) :=
  let d0 := if filterDict then filterDictRec cols dict else dict
  let d1 := setKV d0 "RecTimestamp" now
  if rows.any (fun r => r.recId == recId) then
    some (rows.map fun r => if r.recId == recId then applyDict r d1 else r)
  else none

/-- `RecordTable.archive_record`: `edit_record` with
`{RecStatus: "Off"}` and `filter_dict=False`. -/
def archiveRecord (now : String) (cols : List String) (rows : List Rec)
    (recId : String) : Option (List Rec) :=
  editRecord now cols rows recId [("RecStatus", "Off")] false

/-- `RecordTable.view`: query `RecStatus == 'On'`, then drop the base
columns.  The `filter_status` argument is accepted but never read; the
`recent` argument is `None` in every use relevant here and its branch is
not taken. -/
def view (filterStatus : Bool) (rows : List Rec) :
    List (List (String × String)) :=
  (rows.filter fun r => r.recStatus == "On").map (·.fields)

/-- First-occurrence deduplication of the incoming frame by `RecId`
(`drop_duplicates(subset=RecId)`, default `keep='first'`), with the set of
already-seen ids as accumulator. -/
def dropDupIds : List Rec → List String → List Rec
  | [], _ => []
  | r :: rs, seen =>
      if r.recId ∈ seen then dropDupIds rs seen
      else r :: dropDupIds rs (r.recId :: seen)

/-- `RecordTable.set_data` with `append=True`, `inplace=True`, on an
incoming frame that carries a `RecId` column (the `load_data` path):
overwrite `RecTable` with the table name, drop duplicate `RecId`s *within
the incoming frame only*, and concatenate after the current data. -/
def setDataAppend (name : String) (cur : Option (List Rec))
    (inc : List Rec) : List Rec :=
  cur.getD [] ++ dropDupIds (inc.map fun r => { r with recTable := name }) []

/-- `AcoesRT.columns_data` (`AcoesRT._set_data_columns`). -/
def acoesCols : List String :=
  ["cod_componente", "cod_subcomponente", "nm_tematica", "cod_acao",
   "desc_acao", "valor_investimento", "origem_investimento", "escala_acao"]

/-- The `cod_subcomponente` cell of an actions row (as compared by
`data.query`; a missing cell never equals a concrete code). -/
def subOf (r : Rec) : String := (getField r "cod_subcomponente").getD ""

/-- The `cod_acao` cell of an actions row. -/
def codOf (r : Rec) : String := (getField r "cod_acao").getD ""

/-- Python `s.split(" ")` on the character list: split at every single
space, keeping empty chunks between consecutive separators. -/
def splitSp : List Char → List (List Char)
  | [] => [[]]
  | c :: rest =>
      if c = ' ' then [] :: splitSp rest
      else
        match splitSp rest with
        | [] => [[c]]
        | w :: ws => (c :: w) :: ws

/-- `sub_cod.split(" ")[-1]`: the prefix parsed from a sub-component code
(`split` always returns a non-empty list, `[-1]` is its last element). -/
def subPfx (s : String) : String := ⟨(splitSp s.data).getLastD []⟩

/-- `pandas.Series.unique`: distinct values in first-encounter order. -/
def uniqueVals : List String → List String → List String
  | [], _ => []
  | s :: ss, seen =>
      if s ∈ seen then uniqueVals ss seen
      else s :: uniqueVals ss (s :: seen)

/-- Inner loop of `update_acoes_codes`: walk one sub-component group in
table order, counting active rows; an `"On"` row gets
`"acao <prefix>.<count>"`, any other row gets `"acao arquivada"`. -/
def groupCodes (pfx : String) : List Rec → Nat → List String
  | [], _ => []
  | r :: rs, c =>
      if r.recStatus == "On" then
        ("acao " ++ pfx ++ "." ++ natToDec (c + 1)) :: groupCodes pfx rs (c + 1)
      else
        "acao arquivada" :: groupCodes pfx rs c

/-- `AcoesRT._set_operator.update_acoes_codes`: for each distinct
`cod_subcomponente` (first-encounter order), enumerate that group's rows in
table order and concatenate the per-group code lists. -/
def updateAcoesCodes (rows : List Rec) : List String :=
  (uniqueVals (rows.map subOf) []).flatMap fun sc =>
    groupCodes (subPfx sc) (rows.filter fun r => subOf r == sc) 0

/-- `RecordTable.refresh_data` on the actions table:
`self.data["cod_acao"] = update_acoes_codes()` assigns the returned plain
list to the column *by position*. -/
def refreshAcoes (rows : List Rec) : List Rec :=
  List.zipWith (fun r c => applyField r "cod_acao" c) rows (updateAcoesCodes rows)

/-- `AcoesRT.edit_record`: business-key lookup.  A missing `cod_acao` only
prints a message (flag `true` in the second component) and returns with the
data untouched; otherwise the first matching row's `RecId` is edited via
the base `edit_record` and the operator is re-run. -/
def acoesEditRecord (now : String) (rows : List Rec) (cod : String)
    (dict : List (String × String)) (filterDict : Bool) :
    Option (List Rec) × Bool :=
  match rows.find? (fun r => codOf r == cod) with
  | none => (some rows, true)
  | some r0 =>
      ((editRecord now acoesCols rows r0.recId dict filterDict).map
        refreshAcoes, false)

/-- `AcoesRT.insert_record`: base insert followed by the operator re-run. -/
def acoesInsertRecord (now : String) (d : Option (List Rec))
    (dict : List (String × String)) : Option (List Rec) :=
  (insertRecord now "acoes" acoesCols d dict).map refreshAcoes

/-- Result of the interactive `AcoesRT.insert` flow: the returned boolean,
the table data afterwards, and whether the "Campo vazio" (empty-field)
cancellation message was printed. -/
structure InsertOutcome where
  retval : Bool
  newData : Option (List Rec)
  reportedNull : Bool
deriving DecidableEq, Repr

/-- `AcoesRT.insert`: scan the proposed record; any `None` value cancels
with a printed message and `False` *before* the confirmation prompt.
Otherwise the user's confirmation (`s`/other) decides whether
`insert_record` runs (`save` only writes the file and leaves the in-memory
data unchanged). -/
def acoesInsert (now : String) (confirm : Bool) (d : Option (List Rec))
    (dc : List (String × Option String)) : InsertOutcome :=
  if dc.any (fun kv => kv.2.isNone) then ⟨false, d, true⟩
  else if confirm then
    ⟨true, acoesInsertRecord now d (dc.map fun kv => (kv.1, kv.2.getD "")), false⟩
  else ⟨false, d, false⟩

/-! ### Decimal rendering, parsing, and Python string order -/

theorem decAux_eq_digits (fuel : Nat) :
    ∀ n : Nat, n ≤ fuel → decAux fuel n = Nat.digits 10 n := by
  induction fuel with
  | zero =>
      intro n hn
      have : n = 0 := Nat.le_zero.mp hn
      simp [this, decAux]
  | succ f ih =>
      intro n hn
      by_cases h0 : n = 0
      · simp [h0, decAux]
      · rw [decAux, if_neg h0,
          Nat.digits_def' (by norm_num : (1:Nat) < 10) (Nat.pos_of_ne_zero h0),
          ih (n / 10) (by
            have := Nat.div_lt_self (Nat.pos_of_ne_zero h0) (by norm_num : 1 < 10)
            omega)]

theorem parse_foldl (cs : List Char) :
    ∀ a : Nat, cs.foldl (fun a c => 10 * a + digToNat c) a
      = a * 10 ^ cs.length + parseDigits cs := by
  induction cs with
  | nil => intro a; simp [parseDigits]
  | cons c cs ih =>
      intro a
      have h1 : parseDigits (c :: cs) = digToNat c * 10 ^ cs.length + parseDigits cs := by
        show List.foldl _ _ (c :: cs) = _
        rw [List.foldl_cons, ih (10 * 0 + digToNat c)]
        ring
      rw [List.foldl_cons, ih (10 * a + digToNat c), h1, List.length_cons]
      ring

theorem parse_cons (c : Char) (cs : List Char) :
    parseDigits (c :: cs) = digToNat c * 10 ^ cs.length + parseDigits cs := by
  show List.foldl _ _ (c :: cs) = _
  rw [List.foldl_cons, parse_foldl]
  ring

theorem parse_append_one (cs : List Char) (c : Char) :
    parseDigits (cs ++ [c]) = 10 * parseDigits cs + digToNat c := by
  unfold parseDigits
  rw [List.foldl_append]
  rfl

theorem dChar_toNat {d : Nat} (h : d < 10) : (dChar d).toNat = 48 + d := by
  interval_cases d <;> decide

theorem digToNat_dChar {d : Nat} (h : d < 10) : digToNat (dChar d) = d := by
  unfold digToNat
  rw [dChar_toNat h]
  omega

theorem parse_replicate_zero (m : Nat) (cs : List Char) :
    parseDigits (List.replicate m '0' ++ cs) = parseDigits cs := by
  induction m with
  | zero => simp
  | succ k ih =>
      have : List.replicate (k + 1) '0' ++ cs = '0' :: (List.replicate k '0' ++ cs) := by
        simp [List.replicate_succ]
      rw [this]
      unfold parseDigits
      rw [List.foldl_cons]
      exact ih

theorem parse_rev_map (ds : List Nat) (h : ∀ x ∈ ds, x < 10) :
    parseDigits (ds.reverse.map dChar) = Nat.ofDigits 10 ds := by
  induction ds with
  | nil => simp [parseDigits, Nat.ofDigits_nil]
  | cons d ds ih =>
      rw [List.reverse_cons, List.map_append, List.map_cons, List.map_nil,
        parse_append_one, ih (fun x hx => h x (List.mem_cons_of_mem _ hx)),
        digToNat_dChar (h d (List.mem_cons_self d ds)), Nat.ofDigits_cons]
      ring

theorem parse_natToDec (n : Nat) : parseDigits (natToDec n).data = n := by
  by_cases h : n = 0
  · subst h; decide
  · unfold natToDec
    rw [if_neg h]
    show parseDigits ((decAux n n).reverse.map dChar) = n
    rw [decAux_eq_digits n n le_rfl,
      parse_rev_map _ (fun x hx => Nat.digits_lt_base (by norm_num) hx),
      Nat.ofDigits_digits]

theorem natToDec_digits (n : Nat) :
    ∀ c ∈ (natToDec n).data, 48 ≤ c.toNat ∧ c.toNat ≤ 57 := by
  by_cases h : n = 0
  · subst h; decide
  · unfold natToDec
    rw [if_neg h]
    intro c hc
    have hc2 : c ∈ (Nat.digits 10 n).reverse.map dChar := by
      rw [← decAux_eq_digits n n le_rfl]
      exact hc
    simp only [List.mem_map, List.mem_reverse] at hc2
    obtain ⟨d, hd, rfl⟩ := hc2
    have hd10 : d < 10 := Nat.digits_lt_base (by norm_num) hd
    rw [dChar_toNat hd10]
    omega

theorem natToDec_len_le {n k : Nat} (hk : 1 ≤ k) (h : n < 10 ^ k) :
    (natToDec n).length ≤ k := by
  by_cases h0 : n = 0
  · subst h0
    show (natToDec 0).data.length ≤ k
    simpa [natToDec] using hk
  · show (natToDec n).data.length ≤ k
    unfold natToDec
    rw [if_neg h0]
    show ((decAux n n).reverse.map dChar).length ≤ k
    rw [List.length_map, List.length_reverse, decAux_eq_digits n n le_rfl,
      Nat.digits_len 10 n (by norm_num) h0]
    have := Nat.log_lt_of_lt_pow h0 h
    omega

/-- The zero-padded 4-wide decimal rendering used inside record ids. -/
def pad4 (k : Nat) : List Char := (zfill 4 (natToDec k)).data

/-- `"Rec" + str(k).zfill(4)`: the shape of every id the table generates. -/
def fmtId (k : Nat) : String := "Rec" ++ zfill 4 (natToDec k)

theorem pad4_eq (k : Nat) :
    pad4 k = List.replicate (4 - (natToDec k).length) '0' ++ (natToDec k).data := rfl

theorem pad4_parse (k : Nat) : parseDigits (pad4 k) = k := by
  rw [pad4_eq, parse_replicate_zero, parse_natToDec]

theorem pad4_digits (k : Nat) : ∀ c ∈ pad4 k, 48 ≤ c.toNat ∧ c.toNat ≤ 57 := by
  rw [pad4_eq]
  intro c hc
  rcases List.mem_append.mp hc with h | h
  · have : c = '0' := List.eq_of_mem_replicate h
    subst this
    decide
  · exact natToDec_digits k c h

theorem pad4_len {k : Nat} (h : k < 10000) : (pad4 k).length = 4 := by
  have hlen : (natToDec k).length ≤ 4 :=
    natToDec_len_le (by norm_num) (by norm_num; omega)
  rw [pad4_eq, List.length_append, List.length_replicate]
  have : (natToDec k).data.length = (natToDec k).length := rfl
  omega

theorem parse_lt_pow {cs : List Char}
    (h : ∀ c ∈ cs, 48 ≤ c.toNat ∧ c.toNat ≤ 57) :
    parseDigits cs < 10 ^ cs.length := by
  induction cs with
  | nil => simp [parseDigits]
  | cons c cs ih =>
      rw [parse_cons, List.length_cons]
      have hd : digToNat c ≤ 9 := by
        have := (h c (List.mem_cons_self c cs)).2
        unfold digToNat
        omega
      have hp : parseDigits cs < 10 ^ cs.length :=
        ih fun x hx => h x (List.mem_cons_of_mem _ hx)
      have : digToNat c * 10 ^ cs.length + parseDigits cs
          < (digToNat c + 1) * 10 ^ cs.length := by nlinarith
      calc digToNat c * 10 ^ cs.length + parseDigits cs
          < (digToNat c + 1) * 10 ^ cs.length := this
        _ ≤ 10 * 10 ^ cs.length := by nlinarith
        _ = 10 ^ (cs.length + 1) := by ring

theorem clLe_iff_parse_le :
    ∀ cs ds : List Char, cs.length = ds.length →
      (∀ c ∈ cs, 48 ≤ c.toNat ∧ c.toNat ≤ 57) →
      (∀ c ∈ ds, 48 ≤ c.toNat ∧ c.toNat ≤ 57) →
      (clLe cs ds = true ↔ parseDigits cs ≤ parseDigits ds) := by
  intro cs
  induction cs with
  | nil =>
      intro ds hlen _ _
      have : ds = [] := List.eq_nil_of_length_eq_zero hlen.symm
      subst this
      simp [clLe]
  | cons a as ih =>
      intro ds hlen hca hcd
      cases ds with
      | nil => simp at hlen
      | cons b bs =>
          have hL : as.length = bs.length := by
            simpa using hlen
          have hpa : parseDigits as < 10 ^ as.length :=
            parse_lt_pow fun x hx => hca x (List.mem_cons_of_mem _ hx)
          have hpb : parseDigits bs < 10 ^ bs.length :=
            parse_lt_pow fun x hx => hcd x (List.mem_cons_of_mem _ hx)
          have ha := hca a (List.mem_cons_self a as)
          have hb := hcd b (List.mem_cons_self b bs)
          rw [parse_cons, parse_cons, hL]
          rcases Nat.lt_trichotomy a.toNat b.toNat with hab | hab | hab
          · have hgab : digToNat a < digToNat b := by
              unfold digToNat
              omega
            have h1 : clLe (a :: as) (b :: bs) = true := by
              unfold clLe
              rw [if_pos hab]
            rw [h1]
            simp only [true_iff]
            rw [hL] at hpa
            nlinarith
          · have hgab : digToNat a = digToNat b := by
              unfold digToNat
              omega
            have h1 : clLe (a :: as) (b :: bs) = clLe as bs := by
              show (if a.toNat < b.toNat then true
                else if b.toNat < a.toNat then false else clLe as bs) = clLe as bs
              rw [if_neg (by omega), if_neg (by omega)]
            rw [h1, hgab, Nat.add_le_add_iff_left]
            exact ih bs hL (fun x hx => hca x (List.mem_cons_of_mem _ hx))
              (fun x hx => hcd x (List.mem_cons_of_mem _ hx))
          · have hgab : digToNat b < digToNat a := by
              unfold digToNat
              omega
            have h1 : clLe (a :: as) (b :: bs) = false := by
              unfold clLe
              rw [if_neg (by omega), if_pos hab]
            rw [h1]
            simp only [Bool.false_eq_true, false_iff, not_le]
            rw [hL] at hpa
            nlinarith

theorem stripRec_digitsOnly :
    ∀ cs : List Char, (∀ c ∈ cs, c.toNat ≤ 57) → stripRec cs = cs := by
  intro cs
  induction cs with
  | nil => intro _; rfl
  | cons c rest ih =>
      intro h
      cases rest with
      | nil => rfl
      | cons c2 rest2 =>
          cases rest2 with
          | nil => rfl
          | cons c3 rest3 =>
              have hc : ¬(c = 'R' ∧ c2 = 'e' ∧ c3 = 'c') := by
                rintro ⟨rfl, -, -⟩
                exact absurd (h 'R' (List.mem_cons_self _ _)) (by decide)
              show (if c = 'R' ∧ c2 = 'e' ∧ c3 = 'c' then stripRec rest3
                else c :: stripRec (c2 :: c3 :: rest3)) = c :: c2 :: c3 :: rest3
              rw [if_neg hc, ih fun x hx => h x (List.mem_cons_of_mem _ hx)]

theorem fmtId_data (k : Nat) : (fmtId k).data = 'R' :: 'e' :: 'c' :: pad4 k := by
  unfold fmtId pad4
  rw [String.data_append]
  rfl

theorem parseId_fmtId (k : Nat) : parseId (fmtId k) = k := by
  unfold parseId
  rw [fmtId_data]
  have h1 : stripRec ('R' :: 'e' :: 'c' :: pad4 k) = stripRec (pad4 k) := by
    show (if 'R' = 'R' ∧ 'e' = 'e' ∧ 'c' = 'c' then stripRec (pad4 k)
      else 'R' :: stripRec ('e' :: 'c' :: pad4 k)) = stripRec (pad4 k)
    rw [if_pos ⟨rfl, rfl, rfl⟩]
  rw [h1, stripRec_digitsOnly _ fun c hc => (pad4_digits k c hc).2, pad4_parse]

theorem fmtId_le_iff {a b : Nat} (ha : a < 10000) (hb : b < 10000) :
    (pyStrLe (fmtId a) (fmtId b) = true) ↔ a ≤ b := by
  unfold pyStrLe
  rw [fmtId_data, fmtId_data]
  have h1 : clLe ('R' :: 'e' :: 'c' :: pad4 a) ('R' :: 'e' :: 'c' :: pad4 b)
      = clLe (pad4 a) (pad4 b) := by
    show (if ('R' : Char).toNat < ('R' : Char).toNat then true
      else if ('R' : Char).toNat < ('R' : Char).toNat then false
      else clLe ('e' :: 'c' :: pad4 a) ('e' :: 'c' :: pad4 b)) = _
    rw [if_neg (by omega), if_neg (by omega)]
    show (if ('e' : Char).toNat < ('e' : Char).toNat then true
      else if ('e' : Char).toNat < ('e' : Char).toNat then false
      else clLe ('c' :: pad4 a) ('c' :: pad4 b)) = _
    rw [if_neg (by omega), if_neg (by omega)]
    show (if ('c' : Char).toNat < ('c' : Char).toNat then true
      else if ('c' : Char).toNat < ('c' : Char).toNat then false
      else clLe (pad4 a) (pad4 b)) = _
    rw [if_neg (by omega), if_neg (by omega)]
  rw [h1, clLe_iff_parse_le (pad4 a) (pad4 b)
    (by rw [pad4_len ha, pad4_len hb]) (pad4_digits a) (pad4_digits b),
    pad4_parse, pad4_parse]

theorem strMax_fmtId {a b : Nat} (ha : a < 10000) (hb : b < 10000) :
    strMax (fmtId a) (fmtId b) = fmtId (Nat.max a b) := by
  unfold strMax
  by_cases hab : a ≤ b
  · rw [if_pos ((fmtId_le_iff ha hb).mpr hab)]
    congr 1
    exact (Nat.max_eq_right hab).symm
  · rw [if_neg (fun h => hab ((fmtId_le_iff ha hb).mp h))]
    congr 1
    exact (Nat.max_eq_left (Nat.le_of_not_le hab)).symm

/-- A record id is *well-formed within the 4-digit width*: it is literally
`"Rec" + str(k).zfill(4)` for its own parsed suffix `k`, and `k` fits the
width (`k ≤ 9999`). -/
def wfId (s : String) : Bool :=
  decide (parseId s < 10000) && (s == fmtId (parseId s))

theorem wfId_spec {s : String} (h : wfId s = true) :
    s = fmtId (parseId s) ∧ parseId s < 10000 := by
  unfold wfId at h
  rw [Bool.and_eq_true, decide_eq_true_iff, beq_iff_eq] at h
  exact ⟨h.2, h.1⟩

theorem wfId_fmtId {k : Nat} (h : k < 10000) : wfId (fmtId k) = true := by
  unfold wfId
  rw [Bool.and_eq_true, decide_eq_true_iff, beq_iff_eq, parseId_fmtId]
  exact ⟨h, rfl⟩

theorem foldl_strMax_wf :
    ∀ (xs : List String) (x : String), wfId x = true →
      (∀ s ∈ xs, wfId s = true) →
      xs.foldl strMax x = fmtId ((xs.map parseId).foldl Nat.max (parseId x)) ∧
      (xs.map parseId).foldl Nat.max (parseId x) < 10000 := by
  intro xs
  induction xs with
  | nil =>
      intro x hx _
      obtain ⟨h1, h2⟩ := wfId_spec hx
      exact ⟨by simpa using h1, by simpa using h2⟩
  | cons y ys ih =>
      intro x hx hys
      obtain ⟨hx1, hx2⟩ := wfId_spec hx
      obtain ⟨hy1, hy2⟩ := wfId_spec (hys y (List.mem_cons_self y ys))
      have hmax : strMax x y = fmtId (Nat.max (parseId x) (parseId y)) := by
        conv_lhs => rw [hx1, hy1]
        exact strMax_fmtId hx2 hy2
      have hwfm : wfId (strMax x y) = true := by
        rw [hmax]
        exact wfId_fmtId (Nat.max_lt.mpr ⟨hx2, hy2⟩)
      have := ih (strMax x y) hwfm fun s hs => hys s (List.mem_cons_of_mem _ hs)
      rw [List.foldl_cons, List.map_cons, List.foldl_cons]
      have hpm : parseId (strMax x y) = Nat.max (parseId x) (parseId y) := by
        rw [hmax, parseId_fmtId]
      rw [hpm] at this
      exact this

theorem le_foldl_max : ∀ (xs : List Nat) (a : Nat), a ≤ xs.foldl Nat.max a := by
  intro xs
  induction xs with
  | nil => intro a; exact le_rfl
  | cons y ys ih =>
      intro a
      calc a ≤ Nat.max a y := Nat.le_max_left a y
        _ ≤ (y :: ys).foldl Nat.max a := by rw [List.foldl_cons]; exact ih _

theorem mem_le_foldl_max :
    ∀ (xs : List Nat) (a y : Nat), y ∈ xs → y ≤ xs.foldl Nat.max a := by
  intro xs
  induction xs with
  | nil => intro a y hy; simp at hy
  | cons z zs ih =>
      intro a y hy
      rw [List.foldl_cons]
      rcases List.mem_cons.mp hy with rfl | hy2
      · calc y ≤ Nat.max a y := Nat.le_max_right a y
          _ ≤ zs.foldl Nat.max (Nat.max a y) := le_foldl_max _ _
      · exact ih _ y hy2

/-- Modelled from the spec (refinement reference for C2): "parse the
maximum numeric suffix across all current `RecId` values (active and
archived), increment by one, zero-pad to fixed width" (width 4). -/
def maxSuffix (d : Option (List Rec)) : Nat :=
  ((idsOf d).map parseId).foldl Nat.max 0

/-- Modelled from the spec (refinement reference for C2): the id the spec
says `_next_recid` returns. -/
def specNextRecid (d : Option (List Rec)) : String :=
  "Rec" ++ zfill 4 (natToDec (maxSuffix d + 1))

theorem specNextRecid_eq_fmtId (d : Option (List Rec)) :
    specNextRecid d = fmtId (maxSuffix d + 1) := rfl

theorem nextRecid_wf {r : Rec} {rs : List Rec}
    (hwf : (idsOf (some (r :: rs))).all wfId = true) :
    nextRecid (some (r :: rs)) = some (fmtId (maxSuffix (some (r :: rs)) + 1)) ∧
    maxSuffix (some (r :: rs)) < 10000 ∧
    (∀ s ∈ idsOf (some (r :: rs)), parseId s ≤ maxSuffix (some (r :: rs))) := by
  have hids : idsOf (some (r :: rs)) = r.recId :: rs.map (·.recId) := rfl
  rw [List.all_eq_true] at hwf
  have hwf0 : wfId r.recId = true := hwf _ (by rw [hids]; exact List.mem_cons_self _ _)
  have hwfs : ∀ s ∈ rs.map (·.recId), wfId s = true := fun s hs =>
    hwf s (by rw [hids]; exact List.mem_cons_of_mem _ hs)
  obtain ⟨hfold, hlt⟩ := foldl_strMax_wf (rs.map (·.recId)) r.recId hwf0 hwfs
  have hM : maxSuffix (some (r :: rs))
      = ((rs.map (·.recId)).map parseId).foldl Nat.max (parseId r.recId) := by
    unfold maxSuffix
    rw [hids, List.map_cons, List.foldl_cons]
    congr 1
    exact Nat.max_eq_right (Nat.zero_le _)
  constructor
  · show (lastIdInt (some (r :: rs))).map _ = _
    have hlast : lastIdInt (some (r :: rs))
        = some (maxSuffix (some (r :: rs))) := by
      show some (parseId ((rs.map (·.recId)).foldl strMax r.recId)) = _
      rw [hfold, parseId_fmtId, hM]
    rw [hlast]
    rfl
  constructor
  · rw [hM]; exact hlt
  · intro s hs
    rw [hM]
    rw [hids] at hs
    rcases List.mem_cons.mp hs with rfl | hs2
    · exact le_foldl_max _ _
    · exact mem_le_foldl_max _ _ _ (List.mem_map_of_mem _ hs2)

/-- The id `insert_record` will assign on the current state. -/
def newIdOf (d : Option (List Rec)) : String := (nextRecid d).getD ""

/-- C1 (amended): on a table whose `RecId`s all fit the 4-digit zfill
width, `insert_record` assigns an id whose numeric suffix is strictly
greater than that of every existing id, appends exactly one row, and
preserves uniqueness of the `RecId` column. -/
theorem c1_insert_unique_increasing (now name : String) (cols : List String)
    (d : Option (List Rec)) (dict : List (String × String)) (s : String)
    (hwf : (idsOf d).all wfId = true) (hne : d ≠ some [])
    (hs : s ∈ idsOf d) (hnd : (idsOf d).Nodup) :
    idsOf (insertRecord now name cols d dict) = idsOf d ++ [newIdOf d] ∧
    parseId s < parseId (newIdOf d) ∧
    (idsOf (insertRecord now name cols d dict)).Nodup := by
  cases d with
  | none => simp [idsOf] at hs
  | some rows =>
      cases rows with
      | nil => exact absurd rfl hne
      | cons r rs =>
          obtain ⟨hnx, hltM, hmem⟩ := nextRecid_wf hwf
          have hins : insertRecord now name cols (some (r :: rs)) dict
              = some ((r :: rs) ++
                  [⟨fmtId (maxSuffix (some (r :: rs)) + 1), name, now, "On",
                    filterDictRec cols dict⟩]) := by
            unfold insertRecord
            rw [hnx]
            rfl
          have hnew : newIdOf (some (r :: rs))
              = fmtId (maxSuffix (some (r :: rs)) + 1) := by
            unfold newIdOf
            rw [hnx]
            rfl
          have hgoal : idsOf (some ((r :: rs) ++
              [⟨fmtId (maxSuffix (some (r :: rs)) + 1), name, now, "On",
                filterDictRec cols dict⟩]))
              = idsOf (some (r :: rs))
                ++ [fmtId (maxSuffix (some (r :: rs)) + 1)] := by
            simp [idsOf]
          refine ⟨?_, ?_, ?_⟩
          · rw [hins, hnew]
            exact hgoal
          · rw [hnew, parseId_fmtId]
            exact Nat.lt_succ_of_le (hmem s hs)
          · rw [hins, hgoal, List.nodup_append]
            refine ⟨hnd, by simp, ?_⟩
            intro t ht ht2
            have ht3 : t = fmtId (maxSuffix (some (r :: rs)) + 1) := by
              simpa using ht2
            have h4 := hmem t ht
            rw [ht3, parseId_fmtId] at h4
            omega

/-- C2 (amended): on a table whose `RecId`s all fit the 4-digit zfill
width, `_next_recid` returns `"Rec"` followed by the maximum numeric
suffix plus one, zero-padded to width 4, and on an empty (`data is None`)
table it returns `"Rec0001"`. -/
theorem c2_next_recid_spec (d : Option (List Rec))
    (hwf : (idsOf d).all wfId = true) (hne : d ≠ some []) :
    nextRecid d = some (specNextRecid d) ∧ nextRecid none = some "Rec0001" := by
  refine ⟨?_, by decide⟩
  cases d with
  | none => decide
  | some rows =>
      cases rows with
      | nil => exact absurd rfl hne
      | cons r rs =>
          rw [specNextRecid_eq_fmtId]
          exact (nextRecid_wf hwf).1

/-- A concrete record used by counterexamples and witnesses. -/
def cexRec (id : String) : Rec :=
  ⟨id, "tbl", "2024-01-01 00:00:00", "On", []⟩

/-- A table whose maximal id has outgrown the 4-digit zfill width: this
state is reachable (see the `set_data` conjunct of the counterexample) and
also arises from `Rec9999` by one ordinary insert. -/
def cexRows : List Rec := [cexRec "Rec9999", cexRec "Rec10000"]

/-- C1 counterexample: on the reachable state `[Rec9999, Rec10000]` (its
ids unique, loadable from an empty table by one `set_data`/`load_data`
call), a single `insert_record` produces the duplicate id `Rec10000`, so
the claimed unconditional uniqueness/strict-increase fails. -/
theorem c1_counterexample :
    (idsOf (some cexRows)).Nodup ∧
    setDataAppend "tbl" none cexRows = cexRows ∧
    idsOf (insertRecord "2024-01-02 00:00:00" "tbl" acoesCols (some cexRows) [])
      = ["Rec9999", "Rec10000", "Rec10000"] ∧
    ¬ (["Rec9999", "Rec10000", "Rec10000"] : List String).Nodup := by
  decide

/-- C2 counterexample: on `[Rec9999, Rec10000]` the maximum numeric suffix
is 10000, so the spec formula demands `Rec10001`, but `_next_recid`
string-sorts the ids, takes `Rec9999` as the last one, and returns the
already-used `Rec10000`. -/
theorem c2_counterexample :
    nextRecid (some cexRows) = some "Rec10000" ∧
    specNextRecid (some cexRows) = "Rec10001" ∧
    nextRecid (some cexRows) ≠ some (specNextRecid (some cexRows)) := by
  decide

/-- A small well-formed table for witnesses. -/
def w1Rows : List Rec := [cexRec "Rec0001", cexRec "Rec0002"]

/-- Witness instantiating `c1_insert_unique_increasing` at a concrete
table. -/
theorem c1_witness :
    idsOf (insertRecord "t" "tbl" acoesCols (some w1Rows) []) =
        idsOf (some w1Rows) ++ [newIdOf (some w1Rows)] ∧
      parseId "Rec0002" < parseId (newIdOf (some w1Rows)) ∧
      (idsOf (insertRecord "t" "tbl" acoesCols (some w1Rows) [])).Nodup :=
  c1_insert_unique_increasing "t" "tbl" acoesCols (some w1Rows) [] "Rec0002"
    (by decide) (by decide) (by decide) (by decide)

/-- Witness instantiating `c2_next_recid_spec` at a concrete table. -/
theorem c2_witness :
    nextRecid (some w1Rows) = some (specNextRecid (some w1Rows)) ∧
      nextRecid none = some "Rec0001" :=
  c2_next_recid_spec (some w1Rows) (by decide) (by decide)

/-- What one archive does to one row: status flipped to `Off` and the
timestamp refreshed; every other field untouched. -/
def archStep (now rid : String) (r : Rec) : Rec :=
  if r.recId == rid then { r with recStatus := "Off", recTimestamp := now }
  else r

theorem applyDict_archive (now : String) (r : Rec) :
    applyDict r [("RecStatus", "Off"), ("RecTimestamp", now)]
      = { r with recStatus := "Off", recTimestamp := now } := rfl

theorem archiveRecord_found (now : String) (cols : List String)
    (rows : List Rec) (rid : String) (hin : rid ∈ rows.map (·.recId)) :
    archiveRecord now cols rows rid = some (rows.map (archStep now rid)) := by
  obtain ⟨r0, hr0, hr0id⟩ := List.mem_map.mp hin
  have hany : (rows.any fun r => r.recId == rid) = true :=
    List.any_eq_true.mpr ⟨r0, hr0, by simp [hr0id]⟩
  show editRecord now cols rows rid [("RecStatus", "Off")] false = _
  simp only [editRecord, hany, if_true]
  congr 1

theorem archStep_recId (now rid : String) (r : Rec) :
    (archStep now rid r).recId = r.recId := by
  unfold archStep
  by_cases h : r.recId == rid <;> simp [h]

/-- C6 (amended): for a present record, `archive_record` keeps every row
(count preserved), changes nothing on rows with другой id, and on the
matching record changes exactly `RecStatus` (to `Off`) *and*
`RecTimestamp` (refreshed, via `edit_record`); afterwards no active row
carries the archived id (so the active-filtered `view` excludes it), and
archiving again is accepted without error, leaving statuses `Off`. -/
theorem c6_archive_status_flip (now now2 : String) (cols : List String)
    (rows : List Rec) (rid : String) (hin : rid ∈ rows.map (·.recId)) :
    archiveRecord now cols rows rid = some (rows.map (archStep now rid)) ∧
    (rows.map (archStep now rid)).length = rows.length ∧
    (∀ r2 ∈ rows.map (archStep now rid), r2.recStatus = "On" → r2.recId ≠ rid) ∧
    (∀ r2 ∈ rows.map (archStep now rid), r2.recId ≠ rid → r2 ∈ rows) ∧
    archiveRecord now2 cols (rows.map (archStep now rid)) rid
      = some ((rows.map (archStep now rid)).map (archStep now2 rid)) := by
  refine ⟨archiveRecord_found now cols rows rid hin, List.length_map _ _, ?_, ?_, ?_⟩
  · intro r2 hr2 hon
    obtain ⟨r, hr, rfl⟩ := List.mem_map.mp hr2
    unfold archStep at hon ⊢
    by_cases h : r.recId == rid
    · rw [if_pos h] at hon
      simp at hon
    · rw [if_neg h]
      simpa using h
  · intro r2 hr2 hne
    obtain ⟨r, hr, rfl⟩ := List.mem_map.mp hr2
    unfold archStep at hne ⊢
    by_cases h : r.recId == rid
    · rw [if_pos h] at hne
      simp only [beq_iff_eq] at h
      exact absurd h hne
    · rw [if_neg h]
      exact hr
  · apply archiveRecord_found
    have : (rows.map (archStep now rid)).map (·.recId) = rows.map (·.recId) := by
      rw [List.map_map]
      apply List.map_congr_left
      intro r _
      exact archStep_recId now rid r
    rw [this]
    exact hin

/-- C6 counterexample: archiving `Rec0001` (timestamp
`2024-01-01 00:00:00`) at a later time rewrites the record's
`RecTimestamp` as well, so "only RecStatus flips, all other fields
unchanged" is false. -/
theorem c6_counterexample :
    archiveRecord "2024-01-02 00:00:00" acoesCols [cexRec "Rec0001"] "Rec0001"
      = some [⟨"Rec0001", "tbl", "2024-01-02 00:00:00", "Off", []⟩] ∧
    (cexRec "Rec0001").recTimestamp ≠ "2024-01-02 00:00:00" := by
  decide

/-- Witness instantiating `c6_archive_status_flip` at a concrete table. -/
theorem c6_witness :
    archiveRecord "t1" acoesCols w1Rows "Rec0001"
        = some (w1Rows.map (archStep "t1" "Rec0001")) ∧
      (w1Rows.map (archStep "t1" "Rec0001")).length = w1Rows.length ∧
      (∀ r2 ∈ w1Rows.map (archStep "t1" "Rec0001"),
        r2.recStatus = "On" → r2.recId ≠ "Rec0001") ∧
      (∀ r2 ∈ w1Rows.map (archStep "t1" "Rec0001"),
        r2.recId ≠ "Rec0001" → r2 ∈ w1Rows) ∧
      archiveRecord "t2" acoesCols (w1Rows.map (archStep "t1" "Rec0001")) "Rec0001"
        = some ((w1Rows.map (archStep "t1" "Rec0001")).map
            (archStep "t2" "Rec0001")) :=
  c6_archive_status_flip "t1" "t2" acoesCols w1Rows "Rec0001" (by decide)

/-- An actions-table row with the two domain cells the operator reads. -/
def aRec (id sub cod status : String) : Rec :=
  ⟨id, "acoes", "2024-01-01 00:00:00", status,
   [("cod_subcomponente", sub), ("cod_acao", cod)]⟩

/-- C4 (amended): editing by a business key that is absent
(`AcoesRT.edit_record`) prints a message and returns with the table data
untouched; but the base `RecordTable.edit_record` with an absent `RecId`
raises an exception (`KeyError` from `df.loc`) instead of reporting. -/
theorem c4_edit_missing_key (now : String) (rows : List Rec)
    (cod rid : String) (dict : List (String × String)) (fd : Bool)
    (hcod : cod ∉ rows.map codOf) (hrid : rid ∉ rows.map (·.recId)) :
    acoesEditRecord now rows cod dict fd = (some rows, true) ∧
    editRecord now acoesCols rows rid dict fd = none := by
  constructor
  · have hf : rows.find? (fun r => codOf r == cod) = none := by
      rw [List.find?_eq_none]
      intro r hr hbeq
      exact hcod (List.mem_map.mpr ⟨r, hr, by simpa using hbeq⟩)
    unfold acoesEditRecord
    rw [hf]
  · have hany : (rows.any fun r => r.recId == rid) = false := by
      rw [List.any_eq_false]
      intro r hr hbeq
      exact hrid (List.mem_map.mpr ⟨r, hr, by simpa using hbeq⟩)
    simp only [editRecord, hany, Bool.false_eq_true, if_false]

/-- C4 counterexample: on a concrete table, the base `edit_record` with a
nonexistent `RecId` raises (`none` in the embedding) rather than
reporting and returning a sentinel. -/
theorem c4_counterexample :
    "Rec0099" ∉ w1Rows.map (fun r => r.recId) ∧
    editRecord "t2" acoesCols w1Rows "Rec0099" [("desc_acao", "x")] true
      = none := by
  decide

/-- Witness instantiating `c4_edit_missing_key` at a concrete table. -/
theorem c4_witness :
    acoesEditRecord "t2" [aRec "Rec0001" "sc A" "acao A.1" "On"] "acao A.2"
        [("desc_acao", "x")] false
      = (some [aRec "Rec0001" "sc A" "acao A.1" "On"], true) ∧
    editRecord "t2" acoesCols [aRec "Rec0001" "sc A" "acao A.1" "On"]
        "Rec0009" [("desc_acao", "x")] false = none :=
  c4_edit_missing_key "t2" [aRec "Rec0001" "sc A" "acao A.1" "On"]
    "acao A.2" "Rec0009" [("desc_acao", "x")] false (by decide) (by decide)

/-- C5: an insert dictionary carrying a `None` value for any (hence in
particular a required) domain field makes `AcoesRT.insert` print the
cancellation message and return `False` before the confirmation prompt,
with the table data unchanged. -/
theorem c5_insert_null_field (now : String) (confirm : Bool)
    (d : Option (List Rec)) (dc : List (String × Option String)) (k : String)
    (hk : (k, none) ∈ dc) :
    acoesInsert now confirm d dc = ⟨false, d, true⟩ := by
  unfold acoesInsert
  have h : (dc.any fun kv => kv.2.isNone) = true :=
    List.any_eq_true.mpr ⟨(k, none), hk, rfl⟩
  rw [h]
  rfl

/-- Witness instantiating `c5_insert_null_field` with a null required
field (`cod_subcomponente`). -/
theorem c5_witness :
    acoesInsert "t" true (some w1Rows)
        [("cod_subcomponente", none), ("desc_acao", some "x")]
      = ⟨false, some w1Rows, true⟩ :=
  c5_insert_null_field "t" true (some w1Rows)
    [("cod_subcomponente", none), ("desc_acao", some "x")]
    "cod_subcomponente" (by decide)

theorem view_count (x : List (String × String)) (rows : List Rec) :
    ((rows.filter fun r => r.recStatus == "On").map (·.fields)).count x
      = (rows.filter fun r => r.recStatus == "On" && r.fields == x).length := by
  induction rows with
  | nil => rfl
  | cons r l ih =>
      by_cases hOn : r.recStatus == "On"
      · by_cases hx : r.fields == x
        · simp [List.filter_cons, hOn, hx, List.count_cons, ih]
        · simp [List.filter_cons, hOn, hx, List.count_cons, ih]
      · simp [List.filter_cons, hOn, ih]

/-- C9: `view` returns exactly the `RecStatus == "On"` rows (with base
columns dropped, i.e. only the domain cells), with the multiplicity of
each row value preserved, and the `filter_status` argument is ignored —
both boolean values give the same result, so archived rows are never
obtainable through `view`. -/
theorem c9_view_ignores_filter (b : Bool) (x : List (String × String))
    (rows : List Rec) (hne : rows ≠ []) :
    view b rows = view true rows ∧
    (view b rows).count x
      = (rows.filter fun r => r.recStatus == "On" && r.fields == x).length :=
  ⟨rfl, view_count x rows⟩

/-- A concrete table with one active and one archived record. -/
def w9Rows : List Rec :=
  [aRec "Rec0001" "sc A" "acao A.1" "On", aRec "Rec0002" "sc A" "acao A.2" "Off"]

/-- Witness instantiating `c9_view_ignores_filter`: with
`filter_status=False` the archived record is still excluded. -/
theorem c9_witness :
    view false w9Rows = view true w9Rows ∧
    (view false w9Rows).count
        [("cod_subcomponente", "sc A"), ("cod_acao", "acao A.1")]
      = (w9Rows.filter fun r => r.recStatus == "On" &&
          r.fields == [("cod_subcomponente", "sc A"),
            ("cod_acao", "acao A.1")]).length :=
  c9_view_ignores_filter false
    [("cod_subcomponente", "sc A"), ("cod_acao", "acao A.1")] w9Rows
    (by decide)

/-- Occurrences of a `RecId` value in a table. -/
def countId (l : List Rec) (x : String) : Nat := (l.map (·.recId)).count x

theorem dropDup_count :
    ∀ (l : List Rec) (seen : List String) (x : String),
      countId (dropDupIds l seen) x
        = if x ∈ seen then 0
          else if x ∈ l.map (·.recId) then 1 else 0 := by
  intro l
  induction l with
  | nil =>
      intro seen x
      by_cases hs : x ∈ seen <;> simp [dropDupIds, countId, hs]
  | cons r l ih =>
      intro seen x
      by_cases hr : r.recId ∈ seen
      · rw [dropDupIds, if_pos hr, ih seen x]
        by_cases hxs : x ∈ seen
        · simp [hxs]
        · have hxr : x ≠ r.recId := fun h => hxs (h ▸ hr)
          simp [hxs, List.mem_cons, hxr]
      · rw [dropDupIds, if_neg hr]
        have hcons : countId (r :: dropDupIds l (r.recId :: seen)) x
            = (if r.recId == x then 1 else 0)
              + countId (dropDupIds l (r.recId :: seen)) x := by
          unfold countId
          rw [List.map_cons, List.count_cons]
          by_cases hbe : r.recId == x <;> simp [hbe] <;> omega
        rw [hcons, ih (r.recId :: seen) x]
        by_cases hxr : x = r.recId
        · subst hxr
          simp [hr, List.mem_cons]
        · have hbe : (r.recId == x) = false := by
            simp [beq_iff_eq]
            exact fun h => hxr h.symm
          rw [hbe]
          by_cases hxs : x ∈ seen
          · simp [hxs, List.mem_cons, hxr]
          · simp [hxs, List.mem_cons, hxr]

theorem count_pos_of_mem {l : List Rec} {r : Rec} (h : r ∈ l) :
    1 ≤ (l.map (·.recId)).count r.recId :=
  List.one_le_count_iff.mpr (List.mem_map_of_mem _ h)

theorem dropDup_mem :
    ∀ (l : List Rec) (seen : List String) (r : Rec),
      r ∈ l → (l.map (·.recId)).count r.recId = 1 → r.recId ∉ seen →
      r ∈ dropDupIds l seen := by
  intro l
  induction l with
  | nil => intro seen r hr; simp at hr
  | cons a l ih =>
      intro seen r hr hcount hseen
      have hcc : (l.map (·.recId)).count r.recId
            + (if a.recId == r.recId then 1 else 0) = 1 := by
        have : ((a :: l).map (·.recId)).count r.recId = 1 := hcount
        rw [List.map_cons, List.count_cons] at this
        omega
      rcases List.mem_cons.mp hr with rfl | hrl
      · rw [dropDupIds, if_neg hseen]
        exact List.mem_cons_self _ _
      · have hne : a.recId ≠ r.recId := by
          intro heq
          have h1 := count_pos_of_mem hrl
          rw [heq] at hcc
          simp at hcc
          omega
        have hcl : (l.map (·.recId)).count r.recId = 1 := by
          have : (a.recId == r.recId) = false := by
            simp [beq_iff_eq, hne]
          rw [this] at hcc
          simpa using hcc
        rw [dropDupIds]
        by_cases ha : a.recId ∈ seen
        · rw [if_pos ha]
          exact ih seen r hrl hcl hseen
        · rw [if_neg ha]
          refine List.mem_cons_of_mem _ (ih (a.recId :: seen) r hrl hcl ?_)
          simp [List.mem_cons, hseen]
          exact fun h => hne h.symm

/-- C10: `set_data(append=True)` on an incoming frame that carries `RecId`
deduplicates within the incoming frame only: an incoming row whose id is
unique inside the frame is always appended (with `RecTable` overwritten),
even when that id already exists in the current data — each id present in
the incoming frame adds exactly one occurrence on top of the current
count, so a non-empty table can end up with duplicate `RecId`s. -/
theorem c10_set_data_append (name : String) (cur : Option (List Rec))
    (inc : List Rec) (r : Rec) (rid : String)
    (hr : r ∈ inc) (huniq : (inc.map (·.recId)).count r.recId = 1)
    (hrid : rid ∈ inc.map (·.recId)) :
    { r with recTable := name } ∈ setDataAppend name cur inc ∧
    countId (setDataAppend name cur inc) rid
      = countId (cur.getD []) rid + 1 ∧
    (1 ≤ countId (cur.getD []) rid →
      ¬ ((setDataAppend name cur inc).map (·.recId)).Nodup) := by
  have hmapids : (inc.map fun r => { r with recTable := name }).map (·.recId)
      = inc.map (·.recId) := by
    rw [List.map_map]
    rfl
  have hcount : countId (setDataAppend name cur inc) rid
      = countId (cur.getD []) rid + 1 := by
    unfold setDataAppend countId
    rw [List.map_append, List.count_append]
    have := dropDup_count (inc.map fun r => { r with recTable := name }) [] rid
    unfold countId at this
    rw [hmapids] at this
    simp only [List.not_mem_nil, if_false] at this
    rw [this, if_pos hrid]
  refine ⟨?_, hcount, ?_⟩
  · unfold setDataAppend
    apply List.mem_append_right
    apply dropDup_mem
    · exact List.mem_map_of_mem _ hr
    · show ((inc.map fun r => { r with recTable := name }).map (·.recId)).count
        ({ r with recTable := name } : Rec).recId = 1
      rw [hmapids]
      exact huniq
    · exact List.not_mem_nil _
  · intro hge hnd
    have h1 := (List.nodup_iff_count_le_one.mp hnd) rid
    unfold countId at hcount hge
    omega

/-- Witness instantiating `c10_set_data_append`: loading an incoming frame
whose only row reuses the id `Rec0001` already present in the current
data leaves the table with a duplicated `RecId`. -/
theorem c10_witness :
    { cexRec "Rec0001" with recTable := "tbl" }
        ∈ setDataAppend "tbl" (some [cexRec "Rec0001"]) [cexRec "Rec0001"] ∧
      countId (setDataAppend "tbl" (some [cexRec "Rec0001"])
          [cexRec "Rec0001"]) "Rec0001"
        = countId ((some [cexRec "Rec0001"]).getD []) "Rec0001" + 1 ∧
      (1 ≤ countId ((some [cexRec "Rec0001"]).getD []) "Rec0001" →
        ¬ ((setDataAppend "tbl" (some [cexRec "Rec0001"])
            [cexRec "Rec0001"]).map (·.recId)).Nodup) :=
  c10_set_data_append "tbl" (some [cexRec "Rec0001"]) [cexRec "Rec0001"]
    (cexRec "Rec0001") "Rec0001" (by decide) (by decide) (by decide)

/-- An actions table whose two sub-component groups (`sc A`, `sc B`) are
interleaved in table order: rows 1 and 3 belong to `sc A`, row 2 to
`sc B`; all three are active. -/
def c3Rows : List Rec :=
  [aRec "Rec0001" "sc A" "old" "On",
   aRec "Rec0002" "sc B" "old" "On",
   aRec "Rec0003" "sc A" "old" "On"]

/-- Modelled from the spec (the intended per-row code, stated for C3):
an active row's code is `"acao <prefix>.<n>"` where the prefix is parsed
from the row's *own* sub-component code and `n` is the row's 1-based rank
among the active rows of its own group in table order; an inactive row
gets the archived sentinel. -/
def specAcaoCode (rows : List Rec) (i : Nat) : String :=
  if h : i < rows.length then
    let r := rows.get ⟨i, h⟩
    if r.recStatus == "On" then
      "acao " ++ subPfx (subOf r) ++ "." ++
        natToDec (((rows.take (i + 1)).filter
          (fun x => subOf x == subOf r && x.recStatus == "On")).length)
    else "acao arquivada"
  else ""

/-- C3: `update_acoes_codes` returns the codes in *grouped* order (all of
`sc A`'s codes, then `sc B`'s) while `refresh_data` assigns the returned
list to the `cod_acao` column *positionally*; with interleaved groups the
middle row — which belongs to `sc B` and should get `acao B.1` — receives
`acao A.2`, and the third row (`sc A`) receives `acao B.1`.  The intended
assignment (`specAcaoCode`) differs from what the code computes. -/
theorem c3_positional_misassignment :
    (refreshAcoes c3Rows).map (fun r => (getField r "cod_acao").getD "")
      = ["acao A.1", "acao A.2", "acao B.1"] ∧
    (List.range c3Rows.length).map (specAcaoCode c3Rows)
      = ["acao A.1", "acao B.1", "acao A.2"] ∧
    (refreshAcoes c3Rows).map (fun r => (getField r "cod_acao").getD "")
      ≠ (List.range c3Rows.length).map (specAcaoCode c3Rows) ∧
    subOf (aRec "Rec0002" "sc B" "old" "On") = "sc B" := by
  decide

/-! ### Join, expand and summarize (`join_db`, `expand_db`, `summarize`) -/

/-- An actions-table row as consumed by the join layer: the columns that
`join_db`/`expand_db`/`summarize` read.  Descriptive columns that are only
carried along unchanged (`nm_tematica`, `desc_acao`, `origem_investimento`)
are omitted; `valor_investimento` is the aggregated numeric column. -/
structure AcaoRow where
  recStatus : String
  cod_componente : String
  cod_subcomponente : String
  cod_acao : String
  valor_investimento : ℚ
  escala_acao : String
deriving DecidableEq, Repr

/-- A sub-components row (`SubcRT` schema). -/
structure SubcRow where
  recStatus : String
  cod_subcomponente : String
  desc_subcomponente : String
  cod_componente : String
deriving DecidableEq, Repr

/-- A components row (`CompRT` schema). -/
structure CompRow where
  recStatus : String
  cod_componente : String
  nm_componente : String
  desc_componente : String
deriving DecidableEq, Repr

/-- A scale row (`EscalaRT` schema); `expand_db` reads the raw `.data`,
so no status filter applies to it. -/
structure EscalaRow where
  escala_acao : String
  categoria : String
deriving DecidableEq, Repr

/-- One row of the joined view `df_uniao`: the action columns plus the
columns contributed by the two left joins (`None` = NaN on a join miss).
The right tables' duplicated key columns get the `_drop` suffix and are
dropped, and the final column reordering is cosmetic — column order is
not represented in a named-field row. -/
structure JRow where
  cod_componente : String
  cod_subcomponente : String
  cod_acao : String
  valor_investimento : ℚ
  escala_acao : String
  desc_subcomponente : Option String
  nm_componente : Option String
  desc_componente : Option String
deriving DecidableEq, Repr

/-- Left merge of the active actions with the active sub-components on
`cod_subcomponente`: one output row per matching right row (duplicating
the left row), or one row with a NaN `desc_subcomponente` on a miss. -/
def merge1 (acoes : List AcaoRow) (subs : List SubcRow) :
    List (AcaoRow × Option String) :=
  acoes.flatMap fun a =>
    match subs.filter fun s => s.cod_subcomponente == a.cod_subcomponente with
    | [] => [(a, none)]
    | m :: ms => (m :: ms).map fun s => (a, some s.desc_subcomponente)

/-- `join_db`: `view` each of the three tables (active rows only), then
actions ⟕ sub-components ⟕ components on the natural keys. -/
def joinDb (acoes : List AcaoRow) (subs : List SubcRow)
    (comps : List CompRow) : List JRow :=
  let compsV := comps.filter fun r => r.recStatus == "On"
  let df1 := merge1 (acoes.filter fun r => r.recStatus == "On")
    (subs.filter fun r => r.recStatus == "On")
  df1.flatMap fun p =>
    match compsV.filter fun c => c.cod_componente == p.1.cod_componente with
    | [] => [⟨p.1.cod_componente, p.1.cod_subcomponente, p.1.cod_acao,
        p.1.valor_investimento, p.1.escala_acao, p.2, none, none⟩]
    | m :: ms => (m :: ms).map fun c =>
        ⟨p.1.cod_componente, p.1.cod_subcomponente, p.1.cod_acao,
          p.1.valor_investimento, p.1.escala_acao, p.2,
          some c.nm_componente, some c.desc_componente⟩

/-- `ls_ufs`: the nine enumerated geographies. -/
def lsUfs : List String := ["MA", "PI", "CE", "RN", "PB", "PE", "AL", "SE", "BA"]

/-- A row of the expanded view: a joined row plus the `escala_local`
geography label added by `expand_db`. -/
structure XRow where
  j : JRow
  escala_local : String
deriving DecidableEq, Repr

/-- Does `cl` start with `pat`? -/
def startsWithCL : List Char → List Char → Bool
  | [], _ => true
  | _ :: _, [] => false
  | p :: ps, c :: cs => p == c && startsWithCL ps cs

/-- Substring containment on character lists. -/
def isSubCL (pat : List Char) : List Char → Bool
  | [] => startsWithCL pat []
  | c :: cs => startsWithCL pat (c :: cs) || isSubCL pat cs

/-- `Series.str.contains(pat, regex=False)` / Python `pat in s`: plain
substring containment.  (The single-UF branch calls `contains` with the
default regex engine, but UF codes hold no regex metacharacters, so the
regex match coincides with plain containment.) -/
def containsStr (s pat : String) : Bool := isSubCL pat.data s.data

/-- The body of `expand_db`'s loop for one scale row: single-UF label,
wildcard `"Todos Estados"` fan-out over `ls_ufs`, or the default
substring-match branch.  In the default branch the source line
`s_label == "all"` is a no-op comparison (not an assignment) and the
label written is `s_escala` itself. -/
def expandOne (df1 : List JRow) (e : EscalaRow) : List XRow :=
  if e.categoria == "UF" && lsUfs.contains e.escala_acao then
    (df1.filter fun r => containsStr r.escala_acao e.escala_acao).map
      fun r => ⟨r, e.escala_acao⟩
  else if e.categoria == "UF" && e.escala_acao == "Todos Estados" then
    lsUfs.flatMap fun uf =>
      (df1.filter fun r => containsStr r.escala_acao e.escala_acao).map
        fun r => ⟨r, uf⟩
  else
    (df1.filter fun r => containsStr r.escala_acao e.escala_acao).map
      fun r => ⟨r, e.escala_acao⟩

/-- `expand_db`: join, run `expandOne` over the scale rows in order,
concatenate, and sort by `cod_acao`.  (pandas' default quicksort leaves
the tie order unspecified; an insertion sort on the same key is one such
order, and every property proven below is invariant under permutation of
ties.) -/
def expandDb (acoes : List AcaoRow) (subs : List SubcRow)
    (comps : List CompRow) (escala : List EscalaRow) : List XRow :=
  List.insertionSort (fun x y => pyStrLe x.j.cod_acao y.j.cod_acao = true)
    (escala.flatMap (expandOne (joinDb acoes subs comps)))

/-- One row of the `summarize` output (`unidade` is the fixed label the
source attaches to every row). -/
structure SumRow where
  key : String
  media : ℚ
  soma : ℚ
  minv : ℚ
  maxv : ℚ
  contagem : Nat
  unidade : String
deriving DecidableEq, Repr

/-- `min` of a pandas aggregation (groups are never empty). -/
def qmin : List ℚ → ℚ
  | [] => 0
  | x :: xs => xs.foldl min x

/-- `max` of a pandas aggregation. -/
def qmax : List ℚ → ℚ
  | [] => 0
  | x :: xs => xs.foldl max x

/-- `groupby` keys: the distinct values of the grouping column, sorted
ascending (pandas `groupby(sort=True)`). -/
def groupKeys (keys : List String) : List String :=
  List.insertionSort (fun a b => pyStrLe a b = true) (uniqueVals keys [])

/-- One aggregated group row:
`agg(['mean', 'sum', 'min', 'max', 'count'])` of `valor_investimento`
over the group, with the renamed columns and the fixed unit label. -/
def aggRow (sel : XRow → String) (rows : List XRow) (k : String) : SumRow :=
  let g := (rows.filter fun x => sel x == k).map (·.j.valor_investimento)
  ⟨k, g.sum / (g.length : ℚ), g.sum, qmin g, qmax g, g.length, "Mi R$"⟩

/-- The per-group block of `summarize`, sorted by `soma` descending
(`sort_values(by="soma", ascending=False)`). -/
def sortedRows (sel : XRow → String) (rows : List XRow) : List SumRow :=
  List.insertionSort (fun a b => b.soma ≤ a.soma)
    ((groupKeys (rows.map sel)).map (aggRow sel rows))

/-- The synthetic `"totais"` row: mean of the per-group means, sum of the
per-group sums, min of mins, max of maxes, sum of the per-group counts. -/
def totalsRow (sel : XRow → String) (rows : List XRow) : SumRow :=
  let base := sortedRows sel rows
  ⟨"totais",
   (base.map (·.media)).sum / (base.length : ℚ),
   (base.map (·.soma)).sum,
   qmin (base.map (·.minv)),
   qmax (base.map (·.maxv)),
   (base.map (·.contagem)).sum,
   "Mi R$"⟩

/-- `summarize`: expand, group by the selected key (`subset`, with the
source's `escala_acao → escala_local` remap expressed by the caller's
choice of `sel`), append the totals row.  The optional trailing left
joins that attach descriptive component/sub-component metadata only add
columns and never touch these aggregate values. -/
def summarizeDb (sel : XRow → String) (acoes : List AcaoRow)
    (subs : List SubcRow) (comps : List CompRow)
    (escala : List EscalaRow) : List SumRow :=
  sortedRows sel (expandDb acoes subs comps escala)
    ++ [totalsRow sel (expandDb acoes subs comps escala)]

theorem uniqueVals_not_mem_seen :
    ∀ (l seen : List String) (x : String), x ∈ uniqueVals l seen → x ∉ seen := by
  intro l
  induction l with
  | nil => intro seen x hx; simp [uniqueVals] at hx
  | cons s l ih =>
      intro seen x hx
      rw [uniqueVals] at hx
      by_cases hs : s ∈ seen
      · rw [if_pos hs] at hx
        exact ih seen x hx
      · rw [if_neg hs] at hx
        rcases List.mem_cons.mp hx with rfl | hx2
        · exact hs
        · intro hxs
          exact ih (s :: seen) x hx2 (List.mem_cons_of_mem _ hxs)

theorem uniqueVals_nodup : ∀ l seen : List String, (uniqueVals l seen).Nodup := by
  intro l
  induction l with
  | nil => intro seen; simp [uniqueVals]
  | cons s l ih =>
      intro seen
      rw [uniqueVals]
      by_cases hs : s ∈ seen
      · rw [if_pos hs]; exact ih seen
      · rw [if_neg hs]
        refine List.Nodup.cons ?_ (ih (s :: seen))
        intro hmem
        exact uniqueVals_not_mem_seen l (s :: seen) s hmem (List.mem_cons_self _ _)

theorem mem_uniqueVals :
    ∀ (l seen : List String) (x : String), x ∈ l → x ∉ seen →
      x ∈ uniqueVals l seen := by
  intro l
  induction l with
  | nil => intro seen x hx; simp at hx
  | cons s l ih =>
      intro seen x hx hseen
      rw [uniqueVals]
      by_cases hs : s ∈ seen
      · rw [if_pos hs]
        rcases List.mem_cons.mp hx with rfl | hx2
        · exact absurd hs hseen
        · exact ih seen x hx2 hseen
      · rw [if_neg hs]
        rcases List.mem_cons.mp hx with rfl | hx2
        · exact List.mem_cons_self _ _
        · by_cases hxs : x = s
          · subst hxs; exact List.mem_cons_self _ _
          · exact List.mem_cons_of_mem _
              (ih (s :: seen) x hx2 (by simp [List.mem_cons, hxs, hseen]))

theorem groupKeys_nodup (keys : List String) : (groupKeys keys).Nodup := by
  unfold groupKeys
  exact (List.perm_insertionSort _ _).nodup_iff.mpr (uniqueVals_nodup keys [])

theorem mem_groupKeys {keys : List String} {x : String} (h : x ∈ keys) :
    x ∈ groupKeys keys := by
  unfold groupKeys
  exact (List.perm_insertionSort _ _).mem_iff.mpr
    (mem_uniqueVals keys [] x h (List.not_mem_nil x))

theorem sum_map_update {M : Type} [AddCommMonoid M] :
    ∀ (ks : List String) (k0 : String) (f : String → M) (m : M),
      k0 ∈ ks → ks.Nodup →
      (ks.map fun k => if k = k0 then m + f k else f k).sum
        = m + (ks.map f).sum := by
  intro ks
  induction ks with
  | nil => intro k0 f m h; simp at h
  | cons a ks ih =>
      intro k0 f m hmem hnd
      rcases List.mem_cons.mp hmem with rfl | hmem2
      · have hnotin : ∀ k ∈ ks, k ≠ k0 := fun k hk heq =>
          (List.nodup_cons.mp hnd).1 (heq ▸ hk)
        rw [List.map_cons, if_pos rfl, List.sum_cons]
        have : (ks.map fun k => if k = k0 then m + f k else f k) = ks.map f :=
          List.map_congr_left fun k hk => if_neg (hnotin k hk)
        rw [this, List.map_cons, List.sum_cons, add_assoc]
      · have hna : a ≠ k0 := fun heq =>
          (List.nodup_cons.mp hnd).1 (heq ▸ hmem2)
        rw [List.map_cons, if_neg hna, List.sum_cons,
          ih k0 f m hmem2 (List.nodup_cons.mp hnd).2, List.map_cons,
          List.sum_cons, add_left_comm]

theorem partition_sum {α M : Type} [AddCommMonoid M] (sel : α → String)
    (w : α → M) :
    ∀ (rows : List α) (ks : List String), ks.Nodup →
      (∀ r ∈ rows, sel r ∈ ks) →
      (ks.map fun k => ((rows.filter fun r => sel r == k).map w).sum).sum
        = (rows.map w).sum := by
  intro rows
  induction rows with
  | nil =>
      intro ks _ _
      simp
  | cons r rows ih =>
      intro ks hnd hcov
      have hstep : (ks.map fun k =>
          (((r :: rows).filter fun a => sel a == k).map w).sum)
          = ks.map fun k => if k = sel r
              then w r + ((rows.filter fun a => sel a == k).map w).sum
              else ((rows.filter fun a => sel a == k).map w).sum := by
        apply List.map_congr_left
        intro k _
        by_cases hk : k = sel r
        · subst hk
          rw [if_pos rfl, List.filter_cons, if_pos (by simp), List.map_cons,
            List.sum_cons]
        · rw [if_neg hk, List.filter_cons,
            if_neg (by simp [beq_iff_eq]; exact fun h => hk h.symm)]
      rw [hstep, sum_map_update ks (sel r) _ (w r)
          (hcov r (List.mem_cons_self _ _)) hnd,
        ih ks hnd fun a ha => hcov a (List.mem_cons_of_mem _ ha),
        List.map_cons, List.sum_cons]

theorem sum_map_one {α : Type} (l : List α) :
    (l.map fun _ => (1 : ℕ)).sum = l.length := by
  induction l with
  | nil => rfl
  | cons a l ih => simp [ih]; omega

theorem groupKeys_cover {rows : List XRow} {sel : XRow → String} :
    ∀ r ∈ rows, sel r ∈ groupKeys (rows.map sel) := fun r hr =>
  mem_groupKeys (List.mem_map_of_mem sel hr)

theorem totals_soma (sel : XRow → String) (rows : List XRow) :
    (totalsRow sel rows).soma = (rows.map (·.j.valor_investimento)).sum := by
  show ((sortedRows sel rows).map (·.soma)).sum = _
  have hperm : ((sortedRows sel rows).map (·.soma)).Perm
      (((groupKeys (rows.map sel)).map (aggRow sel rows)).map (·.soma)) :=
    (List.perm_insertionSort _ _).map _
  rw [hperm.sum_eq, List.map_map]
  have hfn : ((fun s : SumRow => s.soma) ∘ aggRow sel rows)
      = fun k => ((rows.filter fun x => sel x == k).map
          (·.j.valor_investimento)).sum := rfl
  rw [hfn]
  exact partition_sum sel (·.j.valor_investimento) rows
    (groupKeys (rows.map sel)) (groupKeys_nodup _) groupKeys_cover

theorem totals_contagem (sel : XRow → String) (rows : List XRow) :
    (totalsRow sel rows).contagem = rows.length := by
  show ((sortedRows sel rows).map (·.contagem)).sum = _
  have hperm : ((sortedRows sel rows).map (·.contagem)).Perm
      (((groupKeys (rows.map sel)).map (aggRow sel rows)).map (·.contagem)) :=
    (List.perm_insertionSort _ _).map _
  rw [hperm.sum_eq, List.map_map]
  have hfn : ((fun s : SumRow => s.contagem) ∘ aggRow sel rows)
      = fun k => ((rows.filter fun x => sel x == k).map
          fun _ => (1 : ℕ)).sum := by
    funext k
    show ((rows.filter fun x => sel x == k).map
        (·.j.valor_investimento)).length = _
    rw [List.length_map, ← sum_map_one]
  rw [hfn,
    partition_sum sel (fun _ => (1 : ℕ)) rows (groupKeys (rows.map sel))
      (groupKeys_nodup _) groupKeys_cover,
    sum_map_one]

/-- C7 (amended): the synthetic `"totais"` row appended by `summarize`
has `soma` equal to the sum of the per-group sums — equivalently the sum
of `valor_investimento` over all rows of the *expanded* view — and
`contagem` equal to the sum of the per-group counts, i.e. the row count
of the expanded view.  That row count exceeds the active record count
whenever the geography fan-out duplicates rows, so `contagem` is *not*
the active record count. -/
theorem c7_summarize_totals (sel : XRow → String) (acoes : List AcaoRow)
    (subs : List SubcRow) (comps : List CompRow) (escala : List EscalaRow) :
    (totalsRow sel (expandDb acoes subs comps escala)).soma
        = ((sortedRows sel (expandDb acoes subs comps escala)).map
            (·.soma)).sum ∧
    (totalsRow sel (expandDb acoes subs comps escala)).soma
        = ((expandDb acoes subs comps escala).map
            (·.j.valor_investimento)).sum ∧
    (totalsRow sel (expandDb acoes subs comps escala)).contagem
        = (expandDb acoes subs comps escala).length ∧
    summarizeDb sel acoes subs comps escala
        = sortedRows sel (expandDb acoes subs comps escala)
          ++ [totalsRow sel (expandDb acoes subs comps escala)] :=
  ⟨rfl, totals_soma sel _, totals_contagem sel _, rfl⟩

/-- An action carrying the wildcard scale, with its sub-component,
component and the wildcard scale row. -/
def cAcao : AcaoRow := ⟨"On", "comp 1", "sc 1", "acao 1.1", 10, "Todos Estados"⟩

/-- The matching sub-component row. -/
def cSubc : SubcRow := ⟨"On", "sc 1", "d", "comp 1"⟩

/-- The matching component row. -/
def cComp : CompRow := ⟨"On", "comp 1", "n", "d"⟩

/-- The wildcard "all geographies" scale-category row. -/
def cEsc : EscalaRow := ⟨"Todos Estados", "UF"⟩

/-- C7 counterexample: one active action on the wildcard scale expands to
9 rows (one per UF), so the totals row's `contagem` is 9 while the total
active record count is 1. -/
theorem c7_counterexample :
    (totalsRow (fun x => x.escala_local)
        (expandDb [cAcao] [cSubc] [cComp] [cEsc])).contagem = 9 ∧
    ([cAcao].filter fun r => r.recStatus == "On").length = 1 ∧
    (totalsRow (fun x => x.escala_local)
        (expandDb [cAcao] [cSubc] [cComp] [cEsc])).contagem
      ≠ ([cAcao].filter fun r => r.recStatus == "On").length := by
  have hlen : (expandDb [cAcao] [cSubc] [cComp] [cEsc]).length = 9 := by
    show (List.insertionSort _ _).length = 9
    rw [List.length_insertionSort]
    decide
  have h1 := totals_contagem (fun x => x.escala_local)
    (expandDb [cAcao] [cSubc] [cComp] [cEsc])
  refine ⟨by rw [h1, hlen], by decide, by rw [h1, hlen]; decide⟩

theorem expandOne_wildcard (df1 : List JRow) :
    expandOne df1 ⟨"Todos Estados", "UF"⟩
      = lsUfs.flatMap fun uf =>
          (df1.filter fun r => containsStr r.escala_acao "Todos Estados").map
            fun r => ⟨r, uf⟩ := rfl

theorem flatMap_label_length (m : List JRow) :
    ∀ us : List String,
      (us.flatMap fun u => m.map fun r => (⟨r, u⟩ : XRow)).length
        = us.length * m.length := by
  intro us
  induction us with
  | nil => simp
  | cons u us ih =>
      rw [List.flatMap_cons, List.length_append, List.length_map, ih,
        List.length_cons]
      ring

theorem flatMap_label_filter_nil (m : List JRow) (uf : String) :
    ∀ us : List String, uf ∉ us →
      ((us.flatMap fun u => m.map fun r => (⟨r, u⟩ : XRow)).filter
        fun x => x.escala_local == uf) = [] := by
  intro us
  induction us with
  | nil => intro _; rfl
  | cons u us ih =>
      intro hus
      rw [List.flatMap_cons, List.filter_append, List.filter_map]
      have hne : (u == uf) = false := by
        simp only [beq_eq_false_iff_ne, ne_eq]
        exact fun h => hus (h ▸ List.mem_cons_self u us)
      have : ((fun x : XRow => x.escala_local == uf) ∘ fun r => (⟨r, u⟩ : XRow))
          = fun _ => false := by
        funext r
        exact hne
      rw [this, List.filter_false, List.map_nil, List.nil_append]
      exact ih fun h => hus (List.mem_cons_of_mem _ h)

theorem flatMap_label_filter (m : List JRow) (uf : String) :
    ∀ us : List String, us.Nodup → uf ∈ us →
      (((us.flatMap fun u => m.map fun r => (⟨r, u⟩ : XRow)).filter
        fun x => x.escala_local == uf).map (·.j)) = m := by
  intro us
  induction us with
  | nil => intro _ h; simp at h
  | cons u us ih =>
      intro hnd hmem
      rw [List.flatMap_cons, List.filter_append, List.filter_map,
        List.map_append]
      rcases List.mem_cons.mp hmem with rfl | hmem2
      · have hcomp : ((fun x : XRow => x.escala_local == uf) ∘
            fun r => (⟨r, uf⟩ : XRow)) = fun _ => true := by
          funext r
          simp
        rw [hcomp, List.filter_true, List.map_map,
          flatMap_label_filter_nil m uf us (List.nodup_cons.mp hnd).1,
          List.map_nil, List.append_nil]
        have hj : ((fun x : XRow => x.j) ∘ fun r => (⟨r, uf⟩ : XRow))
            = fun r => r := rfl
        rw [hj]
        exact List.map_id m
      · have hne : uf ≠ u := fun h =>
          (List.nodup_cons.mp hnd).1 (h ▸ hmem2)
        have hcomp : ((fun x : XRow => x.escala_local == uf) ∘
            fun r => (⟨r, u⟩ : XRow)) = fun _ => false := by
          funext r
          simp only [Function.comp]
          simp [beq_eq_false_iff_ne]
          exact fun h => hne h.symm
        rw [hcomp, List.filter_false, List.map_nil, List.map_nil,
          List.nil_append]
        exact ih (List.nodup_cons.mp hnd).2 hmem2

/-- C8: for the wildcard scale-category row (`categoria = "UF"`,
`escala_acao = "Todos Estados"`), `expand_db`'s loop body produces
exactly `9 × (matched source rows)` output rows, and for each of the 9
geographies the rows labeled with it are exactly the matched source rows,
once each, in order. -/
theorem c8_expand_wildcard (df1 : List JRow) (e : EscalaRow) (uf : String)
    (h1 : e.categoria = "UF") (h2 : e.escala_acao = "Todos Estados")
    (h3 : uf ∈ lsUfs) :
    (expandOne df1 e).length
        = lsUfs.length *
          (df1.filter fun r =>
            containsStr r.escala_acao "Todos Estados").length ∧
    ((expandOne df1 e).filter fun x => x.escala_local == uf).map (·.j)
        = df1.filter fun r => containsStr r.escala_acao "Todos Estados" := by
  obtain ⟨ea, ec⟩ := e
  have h1b : ec = "UF" := h1
  have h2b : ea = "Todos Estados" := h2
  subst h1b h2b
  rw [expandOne_wildcard]
  exact ⟨flatMap_label_length _ lsUfs,
    flatMap_label_filter _ uf lsUfs (by decide) h3⟩

/-- A joined row matching the wildcard scale. -/
def cJRow : JRow :=
  ⟨"comp 1", "sc 1", "acao 1.1", 10, "Todos Estados",
   some "d", some "n", some "d"⟩

/-- Witness instantiating `c8_expand_wildcard`: 9 geographies × 1 matched
action → 9 expanded rows, and the `"BA"`-labeled slice is the matched
action itself. -/
theorem c8_witness :
    (expandOne [cJRow] cEsc).length
        = lsUfs.length *
          ([cJRow].filter fun r =>
            containsStr r.escala_acao "Todos Estados").length ∧
    ((expandOne [cJRow] cEsc).filter fun x => x.escala_local == "BA").map
        (·.j)
      = [cJRow].filter fun r => containsStr r.escala_acao "Todos Estados" :=
  c8_expand_wildcard [cJRow] cEsc "BA" rfl rfl (by decide)
